import Mathlib

/-
Verification of updatemanager.py (tfutils self-update mechanism).

Shallow embedding conventions:
- Python `datetime.datetime` values are modelled at second resolution by
  `PyDateTime` (the only resolution the program ever produces or parses);
  comparison is the lexicographic component order used by Python.
- Raised exceptions of fallible operations are modelled by `Option`
  (`none` = the Python call raises).
- Network and filesystem effects are modelled by passing the observable
  data explicitly: the remote commit-list JSON becomes a `List CommitJson`
  argument, the version-state file becomes an `Option CommitJson`
  (`none` = file absent), a directory listing becomes a `List String`.
- `datetime.fromtimestamp(0.0)` is read under a UTC locale, i.e. the Unix
  epoch 1970-01-01T00:00:00.
-/

namespace UpdateManager

/-- Python naive datetime at second resolution (microsecond = 0 throughout
this program: `strptime` with `DATETIME_FORMAT` and the `%04d/%02d`-style
filename formats never produce sub-second data). -/
structure PyDateTime where
  year : Nat
  month : Nat
  day : Nat
  hour : Nat
  minute : Nat
  second : Nat
deriving DecidableEq

/-- Python datetime comparison: lexicographic on
(year, month, day, hour, minute, second). -/
def PyDateTime.ltb (a b : PyDateTime) : Bool :=
  if a.year ≠ b.year then decide (a.year < b.year)
  else if a.month ≠ b.month then decide (a.month < b.month)
  else if a.day ≠ b.day then decide (a.day < b.day)
  else if a.hour ≠ b.hour then decide (a.hour < b.hour)
  else if a.minute ≠ b.minute then decide (a.minute < b.minute)
  else decide (a.second < b.second)

/-- Python 2 `cmp` on datetimes: -1 / 0 / 1. -/
def pyCmpDt (a b : PyDateTime) : Int :=
  if PyDateTime.ltb a b then -1 else if PyDateTime.ltb b a then 1 else 0

def digitVal (c : Char) : Nat := c.toNat - '0'.toNat

/-- One numeric field of the `_strptime` regex: the two-digit alternatives
(validated by `valid2`) are tried first, then the one-digit alternative
(validated by `valid1`), exactly as the alternation `1[0-2]|0[1-9]|[1-9]`
and its cousins behave on the inputs this program feeds them. -/
def parseNum2 (valid2 : Nat → Bool) (valid1 : Nat → Bool) :
    List Char → Option (Nat × List Char)
  | c1 :: c2 :: rest =>
    if c1.isDigit && c2.isDigit && valid2 (digitVal c1 * 10 + digitVal c2) then
      some (digitVal c1 * 10 + digitVal c2, rest)
    else if c1.isDigit && valid1 (digitVal c1) then
      some (digitVal c1, c2 :: rest)
    else none
  | [c1] =>
    if c1.isDigit && valid1 (digitVal c1) then some (digitVal c1, []) else none
  | [] => none

/-- `%Y`: exactly four digits (`\d\d\d\d`). -/
def parseYear4 : List Char → Option (Nat × List Char)
  | c1 :: c2 :: c3 :: c4 :: rest =>
    if c1.isDigit && c2.isDigit && c3.isDigit && c4.isDigit then
      some (((digitVal c1 * 10 + digitVal c2) * 10 + digitVal c3) * 10
              + digitVal c4, rest)
    else none
  | _ => none

/-- A literal character of the format string. -/
def expectChar (c : Char) : List Char → Option (List Char)
  | c0 :: rest => if c0 = c then some rest else none
  | [] => none

def isLeapYear (y : Nat) : Bool :=
  y % 4 = 0 && (y % 100 ≠ 0 || y % 400 = 0)

def daysInMonth (y m : Nat) : Nat :=
  if m = 2 then (if isLeapYear y then 29 else 28)
  else if m = 4 || m = 6 || m = 9 || m = 11 then 30
  else 31

/-- The validation performed by the `datetime` constructor on the parsed
fields (MINYEAR ≤ year, calendar-valid day, hour/minute/second ranges). -/
def datetimeValid (y mo d h mi s : Nat) : Bool :=
  decide (1 ≤ y) && decide (1 ≤ mo) && decide (mo ≤ 12) &&
  decide (1 ≤ d) && decide (d ≤ daysInMonth y mo) &&
  decide (h ≤ 23) && decide (mi ≤ 59) && decide (s ≤ 59)

/-- `datetime.datetime.strptime(s, "%Y-%m-%dT%H:%M:%S")`: the whole string
must be consumed ("unconverted data remains" otherwise) and the fields must
form a valid datetime; `none` models the raised `ValueError`. -/
def strptimeISO (cs : List Char) : Option PyDateTime := do
  let (y, cs) ← parseYear4 cs
  let cs ← expectChar '-' cs
  let (mo, cs) ← parseNum2 (fun v => decide (1 ≤ v) && decide (v ≤ 12))
      (fun v => decide (1 ≤ v)) cs
  let cs ← expectChar '-' cs
  let (d, cs) ← parseNum2 (fun v => decide (1 ≤ v) && decide (v ≤ 31))
      (fun v => decide (1 ≤ v)) cs
  let cs ← expectChar 'T' cs
  let (h, cs) ← parseNum2 (fun v => decide (v ≤ 23)) (fun _ => true) cs
  let cs ← expectChar ':' cs
  let (mi, cs) ← parseNum2 (fun v => decide (v ≤ 59)) (fun _ => true) cs
  let cs ← expectChar ':' cs
  let (s, cs) ← parseNum2 (fun v => decide (v ≤ 61)) (fun _ => true) cs
  if cs = [] && datetimeValid y mo d h mi s then
    some ⟨y, mo, d, h, mi, s⟩
  else none

/-- Python `sDt.rsplit('-', 1)[0]`: everything before the LAST hyphen, or
the whole string when it contains no hyphen. -/
def dropAfterLastHyphen (cs : List Char) : List Char :=
  match cs.reverse.dropWhile (fun c => decide (c ≠ '-')) with
  | [] => cs
  | _ :: rest => rest.reverse

/-- Source `parse_dt` (line 29-30): strip everything after the last hyphen,
then `strptime` with `DATETIME_FORMAT = "%Y-%m-%dT%H:%M:%S"`. -/
def parse_dt (sDt : String) : Option PyDateTime :=
  strptimeISO (dropAfterLastHyphen sDt.data)

/-- Zero-padded decimal rendering, as `"%04d"` / `"%02d"` and the padding
used by `datetime.isoformat`. -/
def padNum (w n : Nat) : String :=
  ⟨List.replicate (w - (toString n).length) '0' ++ (toString n).data⟩

/-- `datetime.isoformat()` of a naive datetime with microsecond 0:
`YYYY-MM-DDTHH:MM:SS`, no UTC-offset suffix. -/
def PyDateTime.isoformat (d : PyDateTime) : String :=
  padNum 4 d.year ++ "-" ++ padNum 2 d.month ++ "-" ++ padNum 2 d.day ++ "T" ++
  padNum 2 d.hour ++ ":" ++ padNum 2 d.minute ++ ":" ++ padNum 2 d.second

/-- Source `Commit` (lines 32-49). -/
structure Commit where
  id : String
  sMessage : String
  dt : PyDateTime
deriving DecidableEq

/-- The JSON dict shape `{"id", "message", "committed_date"}` used both by
the GitHub commits endpoint and by the version-state file. -/
structure CommitJson where
  id : String
  message : String
  committed_date : String
deriving DecidableEq

/-- Source `Commit.to_json` (lines 37-39). -/
def Commit.to_json (c : Commit) : CommitJson :=
  ⟨c.id, c.sMessage, c.dt.isoformat⟩

/-- Source `Commit.from_json` (lines 40-43); `none` models the
`ValueError` raised by `parse_dt`. -/
def Commit.from_json (j : CommitJson) : Option Commit :=
  (parse_dt j.committed_date).map fun dt => ⟨j.id, j.message, dt⟩

/-- Source `Commit.empty` (lines 44-47): `datetime.fromtimestamp(0.0)`
under a UTC locale is the Unix epoch. -/
def Commit.empty : Commit :=
  ⟨"", "(No commit found.)", ⟨1970, 1, 1, 0, 0, 0⟩⟩

/-- Source `load_version_commit` (lines 80-84). The backing file content is
passed explicitly: `none` = file absent. A present file is parsed with
`Commit.from_json`; the result `none` models the raised exception. -/
def load_version_commit (file : Option CommitJson) : Option Commit :=
  match file with
  | none => some Commit.empty
  | some j => Commit.from_json j

/-- The inline comparator of source line 64, `lambda a,b: -cmp(b.dt,a.dt)`.
Since `cmp` is antisymmetric this equals `cmp(a.dt, b.dt)`. -/
def sortComparator (a b : Commit) : Int :=
  -(pyCmpDt b.dt a.dt)

/-- The order relation induced by the comparator: `a` may precede `b`
exactly when the comparator is non-positive. -/
def commitLe (a b : Commit) : Bool :=
  decide (sortComparator a b ≤ 0)

/-- Stable insertion step: an element taken from earlier in the input is
placed before the elements it compares less-or-equal to. -/
def pyInsert (x : Commit) : List Commit → List Commit
  | [] => [x]
  | y :: ys => if commitLe x y then x :: y :: ys else y :: pyInsert x ys

/-- Python `list.sort(cmp)` with a consistent comparator produces the
unique stable order w.r.t. the comparator; modelled by stable insertion
sort under `commitLe`. This is the sorted list of source line 64. -/
def pySortCommits : List Commit → List Commit
  | [] => []
  | x :: xs => pyInsert x (pySortCommits xs)

/-- Source `github_last_commit` (lines 55-65). Network I/O is modelled by
passing the JSON commit list of the response body. Outer `none` = an
exception while parsing a commit; inner `none` = empty commit list (the
`(listCommit and listCommit[0]) or None` idiom). -/
def github_last_commit (commits : List CommitJson) : Option (Option Commit) :=
  (commits.mapM Commit.from_json).map fun listCommit =>
    (pySortCommits listCommit).head?

/-- Source `is_update_available` (lines 92-93): `cmtLatest.dt > cmtVersion.dt`. -/
def is_update_available (cmtLatest cmtVersion : Commit) : Bool :=
  PyDateTime.ltb cmtVersion.dt cmtLatest.dt

/-- Source `check_for_updates` (lines 113-117). The remote commit list and
the version-state file content are passed explicitly; `none` models any
raised exception, including the `AttributeError` from reading `.dt` of
`None` when the remote branch has no commits. -/
def check_for_updates (remote : List CommitJson) (versionFile : Option CommitJson) :
    Option Bool := do
  let cmtLatest ← github_last_commit remote
  let cmtVersion ← load_version_commit versionFile
  match cmtLatest with
  | none => none
  | some latest => some (is_update_available latest cmtVersion)

/-- Three remote commits with strictly increasing timestamps
T1 < T2 < T3, in GitHub's wire format (offset-suffixed dates). -/
def jT1 : CommitJson := ⟨"c1", "first", "2012-03-05T23:06:50-08:00"⟩

def jT2 : CommitJson := ⟨"c2", "second", "2012-03-06T23:06:50-08:00"⟩

def jT3 : CommitJson := ⟨"c3", "third", "2012-03-07T23:06:50-08:00"⟩

def cT1 : Commit := ⟨"c1", "first", ⟨2012, 3, 5, 23, 6, 50⟩⟩

def cT2 : Commit := ⟨"c2", "second", ⟨2012, 3, 6, 23, 6, 50⟩⟩

def cT3 : Commit := ⟨"c3", "third", ⟨2012, 3, 7, 23, 6, 50⟩⟩

/-- Python's substring test `sub in s`: some (possibly empty) suffix of `s`
starts with `sub`. -/
def infixCheck (sub : List Char) : List Char → Bool
  | [] => sub.isEmpty
  | c :: cs => sub.isPrefixOf (c :: cs) || infixCheck sub cs

/-- Python `s.endswith(sfx)`. -/
def strEndsWith (sSuffix s : String) : Bool :=
  sSuffix.data.reverse.isPrefixOf s.data.reverse

/-- `s` begins with `sPre` (used only by the spec-side predicate below). -/
def strStartsWith (sPre s : String) : Bool :=
  sPre.data.isPrefixOf s.data

/-- Source `filter_backup` (lines 132-137). The module constants
`BACKUP_DIR_PATH` and `TARBALL_DIR_PATH` are absolute paths derived from
the install location at runtime; they are passed as the first two
arguments. Each condition is Python's substring test `in`, plus an
`endswith` for compiled bytecode. -/
def filter_backup (sBackupDirPath sTarballDirPath sPath : String) : Bool :=
  infixCheck sBackupDirPath.data sPath.data
  || infixCheck sTarballDirPath.data sPath.data
  || infixCheck "/build".data sPath.data
  || infixCheck ".git/".data sPath.data
  || strEndsWith ".pyc" sPath

/-- Path components of a `/`-separated path. -/
def splitSegs : List Char → List (List Char)
  | [] => [[]]
  | c :: cs =>
    if c = '/' then [] :: splitSegs cs
    else
      match splitSegs cs with
      | [] => [[c]]
      | s :: ss => (c :: s) :: ss

/-- Modelled from the spec words (C4 / §4.5), for comparison with the
source `filter_backup`: a path is excluded iff it falls under the backups
directory, under the staging directory, under a path segment literally
named `build`, under a version-control metadata directory (`.git`), or
has a compiled-bytecode extension. -/
def spec_filter_backup (sBackupDirPath sTarballDirPath sPath : String) : Bool :=
  strStartsWith (sBackupDirPath ++ "/") sPath
  || strStartsWith (sTarballDirPath ++ "/") sPath
  || (splitSegs sPath.data).contains "build".data
  || (splitSegs sPath.data).contains ".git".data
  || strEndsWith ".pyc" sPath

/-- Python 2 `\w` without `re.UNICODE`: `[a-zA-Z0-9_]`. -/
def isWordChar (c : Char) : Bool :=
  c.isAlpha || c.isDigit || c = '_'

/-- The fixed replacement string of `rePrefix.sub("tfutils", ti.name, 1)`. -/
def canonicalRoot : List Char := "tfutils".data

/-- Source `unpack_tarball`'s member rename (lines 119-124):
`re.sub` with pattern `^<escaped user>-<escaped repo>-\w+`, replacement
`"tfutils"`, count 1. The `^` anchor restricts the single substitution to
position 0: if the literal `user-repo-` heads the name and at least one
word character follows, the greedy `\w+` run is consumed and replaced by
`tfutils`; otherwise the name is unchanged. -/
def subLeading (u r name : List Char) : List Char :=
  if (u ++ '-' :: (r ++ ['-'])).isPrefixOf name then
    if (name.drop (u ++ '-' :: (r ++ ['-'])).length).takeWhile isWordChar = [] then
      name
    else
      canonicalRoot ++ (name.drop (u ++ '-' :: (r ++ ['-'])).length).dropWhile isWordChar
  else name

/-- String-level wrapper of the member rename, as applied to `ti.name`. -/
def rewriteMember (sUser sRepo sName : String) : String :=
  ⟨subLeading sUser.data sRepo.data sName.data⟩

def exampleBackupDir : String := "/opt/tfutils/versions/backups"

def exampleTarballDir : String := "/opt/tfutils/versions/tarballs"

/-- Observable side-effecting steps of the pipeline, for order-of-events
reasoning. -/
inductive Op where
  | loadConfig
  | downloadTarball
  | unpackTarball
  | backup
deriving DecidableEq

/-- The already-parsed origin configuration (spec `OriginConfig`): the
fields `deploy_updates` reads. -/
structure OriginConfig where
  user : String
  repo : String
  masterBranch : String
deriving DecidableEq

/-- Observable filesystem state threaded through the pipeline: staged
tarball filenames, backup archive filenames, extracted member paths, and
an event trace recording the order of the steps. -/
structure World where
  tarballs : List String
  backups : List String
  extracted : List String
  trace : List Op
deriving DecidableEq

/-- Source `tarball_filename` (lines 67-70), at an explicit clock reading:
`"tarball_%04d_%02d_%02d_%02d_%02d_%02d.tar.gz"`. -/
def tarball_filename (now : PyDateTime) : String :=
  "tarball_" ++ padNum 4 now.year ++ "_" ++ padNum 2 now.month ++ "_" ++
  padNum 2 now.day ++ "_" ++ padNum 2 now.hour ++ "_" ++ padNum 2 now.minute ++
  "_" ++ padNum 2 now.second ++ ".tar.gz"

/-- Source `backup_name` (lines 127-130):
`"backup_%04d_%02d_%02d_%02d_%02d_%02d.tar.gz"`. -/
def backup_name (now : PyDateTime) : String :=
  "backup_" ++ padNum 4 now.year ++ "_" ++ padNum 2 now.month ++ "_" ++
  padNum 2 now.day ++ "_" ++ padNum 2 now.hour ++ "_" ++ padNum 2 now.minute ++
  "_" ++ padNum 2 now.second ++ ".tar.gz"

/-- Source `download_tarball` (lines 95-105): stores the branch snapshot in
the staging directory under the timestamp filename and returns that
filename. -/
def download_tarball (w : World) (now : PyDateTime) : World × String :=
  (⟨w.tarballs ++ [tarball_filename now], w.backups, w.extracted,
    w.trace ++ [Op.downloadTarball]⟩, tarball_filename now)

/-- Source `unpack_tarball` (lines 119-125) at the World level: the archive
content is passed as its member-path list; every member is extracted under
its rewritten name (see `subLeading` for the rename itself). -/
def unpack_tarball (w : World) (members : List String) (sUser sRepo : String) :
    World :=
  ⟨w.tarballs, w.backups,
    w.extracted ++ members.map (fun m => rewriteMember sUser sRepo m),
    w.trace ++ [Op.unpackTarball]⟩

/-- Source `backup_current` (lines 139-146): writes one exclusion-filtered
backup archive into the backups directory and returns its filename. -/
def backup_current (w : World) (now : PyDateTime) : World × String :=
  (⟨w.tarballs, w.backups ++ [backup_name now], w.extracted,
    w.trace ++ [Op.backup]⟩, backup_name now)

/-- Source `deploy_updates` (lines 153-157): loads the origin config,
downloads the master-branch snapshot, unpacks it onto the install root.
Note it never invokes `backup_current`. -/
def deploy_updates (cfg : OriginConfig) (members : List String)
    (now : PyDateTime) (w : World) : World :=
  let w1 : World := ⟨w.tarballs, w.backups, w.extracted,
    w.trace ++ [Op.loadConfig]⟩
  let p := download_tarball w1 now
  unpack_tarball p.1 members cfg.user cfg.repo

def cfgEx : OriginConfig := ⟨"alice", "myrepo", "master"⟩

def wEmpty : World := ⟨[], [], [], []⟩

def nowEx : PyDateTime := ⟨2024, 3, 5, 7, 8, 9⟩

/-- A literal run of the `TARBALL_RE` pattern: consume `pat` from the
front, return the remainder, fail otherwise. -/
def litP (pat cs : List Char) : Option (List Char) :=
  if pat.isPrefixOf cs then some (cs.drop pat.length) else none

/-- `\d{n}`: consume exactly `n` ASCII digits. -/
def digitsP (n : Nat) (cs : List Char) : Option (List Char) :=
  if (cs.take n).length = n ∧ (cs.take n).all Char.isDigit = true then
    some (cs.drop n)
  else none

/-- The body of `TARBALL_RE` (source lines 25-26) before the `$` anchor:
`tarball_\d{4}_\d{2}_\d{2}_\d{2}_\d{2}_\d{2}\.tar\.gz`, anchored at
position 0 by `^` (and by `re.match` itself); returns the unconsumed
suffix. -/
def tarballCore (cs : List Char) : Option (List Char) :=
  ((((((((((((litP "tarball_".data cs).bind (digitsP 4)).bind
    (litP "_".data)).bind (digitsP 2)).bind (litP "_".data)).bind
    (digitsP 2)).bind (litP "_".data)).bind (digitsP 2)).bind
    (litP "_".data)).bind (digitsP 2)).bind (litP "_".data)).bind
    (digitsP 2)).bind (litP ".tar.gz".data)

/-- `TARBALL_RE.match(sFilename) is not None`: the body matches from
position 0 and the `$` anchor holds — i.e. the remainder is empty OR a
single trailing newline (Python's `$` matches just before a newline that
ends the string). -/
def tarballMatch (s : String) : Bool :=
  decide (tarballCore s.data = some []) ||
  decide (tarballCore s.data = some ['\n'])

/-- Modelled from the spec words (C8), for comparison: the filename
matches the canonical pattern `tarball_YYYY_MM_DD_HH_MM_SS.tar.gz`
exactly (nothing before, nothing after). -/
def specCanonicalTarball (s : String) : Bool :=
  decide (tarballCore s.data = some [])

/-- Source `clean_downloads` (lines 107-111). The staging-directory
listing is passed explicitly; the result is the pair
(files unlinked, files left untouched). -/
def clean_downloads (files : List String) : List String × List String :=
  (files.filter (fun sFilename => tarballMatch sFilename),
   files.filter (fun sFilename => !(tarballMatch sFilename)))

/-- A front-consuming parser step: success extends along appends, and any
successful run splits the input into a consumed part (on which the step
succeeds exactly) and the remainder. -/
def PStep (f : List Char → Option (List Char)) : Prop :=
  (∀ cs r e, f cs = some r → f (cs ++ e) = some (r ++ e)) ∧
  (∀ cs r, f cs = some r → ∃ p, cs = p ++ r ∧ f p = some [])

/-- C2: the sort is ASCENDING, not descending. The comparator
`-cmp(b.dt, a.dt)` equals `cmp(a.dt, b.dt)`, so for inputs with
timestamps T1 < T2 < T3 (input order [T2, T1, T3]) the sorted list is
[T1, T2, T3] — not the claimed [T3, T2, T1] — and `github_last_commit`
returns the EARLIEST commit, contradicting its own name. -/
theorem github_last_commit_sorts_ascending :
    pySortCommits [cT2, cT1, cT3] = [cT1, cT2, cT3] ∧
    pySortCommits [cT2, cT1, cT3] ≠ [cT3, cT2, cT1] ∧
    github_last_commit [jT2, jT1, jT3] = some (some cT1) := by
  refine ⟨by decide, by decide, by decide⟩

/-- C5: `is_update_available` alone is a strict comparison as claimed, but
`check_for_updates` does NOT return "latest remote commit newer than
baseline": with remote timestamps 2012-03-05 and 2012-03-07 and baseline
2012-03-06 the latest remote commit is strictly newer than the baseline,
yet the code compares the head of its ascending sort (the earliest commit)
and returns `false`. -/
theorem check_for_updates_misses_latest :
    check_for_updates [jT1, jT3] (some jT2) = some false ∧
    PyDateTime.ltb cT2.dt cT3.dt = true ∧
    is_update_available cT3 cT2 = true := by
  refine ⟨by decide, by decide, by decide⟩

/-- C10: on a remote branch with zero commits `github_last_commit` returns
`None`, and `check_for_updates` then has no non-error result: it reads
`.dt` of `None` (modelled by the error branch `none`) instead of
returning `false` — whatever the version-state file holds. -/
theorem check_for_updates_empty_remote :
    github_last_commit [] = some none ∧
    ∀ versionFile : Option CommitJson, check_for_updates [] versionFile = none := by
  refine ⟨rfl, ?_⟩
  intro versionFile
  cases versionFile with
  | none => rfl
  | some j =>
    have h2 : github_last_commit [] = some none := rfl
    cases h : Commit.from_json j <;>
      simp [check_for_updates, load_version_commit, h, h2]

theorem isPrefixOf_exists (l m : List Char) :
    l.isPrefixOf m = true ↔ ∃ t, m = l ++ t := by
  induction l generalizing m with
  | nil => simp [List.isPrefixOf]
  | cons a as ih =>
    cases m with
    | nil => simp [List.isPrefixOf]
    | cons b bs =>
      simp only [List.isPrefixOf, Bool.and_eq_true, beq_iff_eq, ih,
        List.cons_append, List.cons.injEq]
      constructor
      · rintro ⟨rfl, t, rfl⟩
        exact ⟨t, rfl, rfl⟩
      · rintro ⟨t, rfl, rfl⟩
        exact ⟨rfl, t, rfl⟩

theorem infixCheck_iff (sub l : List Char) :
    infixCheck sub l = true ↔ ∃ a b, l = a ++ sub ++ b := by
  induction l with
  | nil =>
    simp only [infixCheck, List.isEmpty_iff]
    constructor
    · rintro rfl
      exact ⟨[], [], rfl⟩
    · rintro ⟨a, b, h⟩
      rcases List.append_eq_nil.mp h.symm with ⟨h1, -⟩
      exact (List.append_eq_nil.mp h1).2
  | cons c cs ih =>
    simp only [infixCheck, Bool.or_eq_true, isPrefixOf_exists, ih]
    constructor
    · rintro (⟨t, h⟩ | ⟨a, b, h⟩)
      · exact ⟨[], t, by simpa using h⟩
      · exact ⟨c :: a, b, by simp [h]⟩
    · rintro ⟨a, b, h⟩
      cases a with
      | nil => exact Or.inl ⟨b, by simpa using h⟩
      | cons x xs =>
        rcases List.cons_eq_cons.mp h with ⟨-, h2⟩
        exact Or.inr ⟨xs, b, by simpa using h2⟩

theorem strEndsWith_iff (sfx s : String) :
    strEndsWith sfx s = true ↔ ∃ a, s.data = a ++ sfx.data := by
  unfold strEndsWith
  rw [isPrefixOf_exists]
  constructor
  · rintro ⟨t, h⟩
    refine ⟨t.reverse, ?_⟩
    have h2 := congrArg List.reverse h
    simpa using h2
  · rintro ⟨a, h⟩
    exact ⟨a.reverse, by simp [h]⟩

theorem isPrefixOf_append (l t : List Char) : l.isPrefixOf (l ++ t) = true :=
  (isPrefixOf_exists l (l ++ t)).mpr ⟨t, rfl⟩

theorem takeWhile_dropWhile_split (p : Char → Bool) (w rest : List Char)
    (hw : ∀ c ∈ w, p c = true)
    (hr : ∀ c, rest.head? = some c → p c = false) :
    (w ++ rest).takeWhile p = w ∧ (w ++ rest).dropWhile p = rest := by
  induction w with
  | nil =>
    simp only [List.nil_append]
    cases rest with
    | nil => simp
    | cons c cs =>
      have hc := hr c rfl
      simp [List.takeWhile_cons, List.dropWhile_cons, hc]
  | cons a as ih =>
    have ha : p a = true := hw a (List.mem_cons_self a as)
    have ih2 := ih (fun c hc => hw c (List.mem_cons_of_mem a hc))
    simp [List.takeWhile_cons, List.dropWhile_cons, ha, ih2.1, ih2.2]

/-- After a successful substitution the name starts with `tfutils`, and the
pattern `^u-r-\w+` cannot match again there unless `tfutils` heads `u`:
the pattern's first hyphen would have to land inside the hyphen-free,
all-word-character run `tfutils`. -/
theorem noMatchOnCanonical (u r rest : List Char)
    (h : canonicalRoot.isPrefixOf u = false) :
    (u ++ '-' :: (r ++ ['-'])).isPrefixOf (canonicalRoot ++ rest) = false := by
  by_contra hc
  rw [Bool.not_eq_false, isPrefixOf_exists] at hc
  obtain ⟨t, ht⟩ := hc
  have ht2 : canonicalRoot ++ rest = (u ++ ['-']) ++ (r ++ ['-'] ++ t) := by
    simpa [List.append_assoc] using ht
  have hlen7 : canonicalRoot.length = 7 := by decide
  cases Nat.lt_or_ge u.length 7 with
  | inl hlt =>
    have e3 : u.length + 1 - canonicalRoot.length = 0 := by rw [hlen7]; omega
    have e1 : (canonicalRoot ++ rest).take (u.length + 1) =
        canonicalRoot.take (u.length + 1) := by
      rw [List.take_append_eq_append_take, e3]
      simp
    have e2 : ((u ++ ['-']) ++ (r ++ ['-'] ++ t)).take (u.length + 1) =
        u ++ ['-'] := by
      have hul : (u ++ ['-']).length = u.length + 1 := by simp
      rw [List.take_left' hul]
    have e4 : u ++ ['-'] = canonicalRoot.take (u.length + 1) := by
      rw [← e2, ← ht2, e1]
    have h5 : '-' ∈ canonicalRoot := by
      apply List.take_subset (u.length + 1)
      rw [← e4]
      simp
    revert h5
    decide
  | inr hge =>
    have e1 : (canonicalRoot ++ rest).take 7 = canonicalRoot := by
      have e1a : canonicalRoot.take 7 = canonicalRoot := by decide
      have e1b : (7 : Nat) - canonicalRoot.length = 0 := by rw [hlen7]
      rw [List.take_append_eq_append_take, e1a, e1b]
      simp
    have e2 : ((u ++ ['-']) ++ (r ++ ['-'] ++ t)).take 7 = u.take 7 := by
      rw [List.append_assoc, List.take_append_eq_append_take,
        Nat.sub_eq_zero_of_le hge]
      simp
    have e4 : canonicalRoot = u.take 7 := by rw [← e1, ht2, e2]
    have h5 : canonicalRoot.isPrefixOf u = true := by
      rw [isPrefixOf_exists]
      refine ⟨u.drop 7, ?_⟩
      rw [e4]
      exact (List.take_append_drop 7 u).symm
    rw [h] at h5
    exact Bool.noConfusion h5

/-- C7: the extraction rename replaces exactly the leading
`<user>-<repo>-<wordchars>` segment with the canonical root `tfutils` and
appends the remainder of the member path verbatim. For any user `u`, repo
`r`, nonempty word-character run `w` and remainder `rest` that does not
begin with a word character, the member path `u-r-w ++ rest` is rewritten
to `tfutils ++ rest`; in particular `alice-myrepo-abcdef1/src/main.go`
becomes `tfutils/src/main.go` (see the witness). -/
theorem subLeading_rewrites_leading_segment
    (u r w rest name : List Char)
    (hw : w ≠ []) (hword : ∀ c ∈ w, isWordChar c = true)
    (hrest : ∀ c, rest.head? = some c → isWordChar c = false)
    (hname : name = (u ++ '-' :: (r ++ ['-'])) ++ (w ++ rest)) :
    subLeading u r name = canonicalRoot ++ rest := by
  subst hname
  have hpre := isPrefixOf_append (u ++ '-' :: (r ++ ['-'])) (w ++ rest)
  have hdrop := List.drop_left (u ++ '-' :: (r ++ ['-'])) (w ++ rest)
  obtain ⟨htake, hdropw⟩ := takeWhile_dropWhile_split isWordChar w rest hword hrest
  simp [subLeading, hpre, hdrop, htake, hdropw, hw]

/-- Witness for C7 at the claim's concrete input. -/
theorem subLeading_rewrites_leading_segment_witness :
    subLeading "alice".data "myrepo".data "alice-myrepo-abcdef1/src/main.go".data =
      "tfutils/src/main.go".data := by
  have h := subLeading_rewrites_leading_segment "alice".data "myrepo".data
    "abcdef1".data "/src/main.go".data "alice-myrepo-abcdef1/src/main.go".data
    (by decide) (by decide) (by decide) (by decide)
  exact h.trans (by decide)

/-- C9 counterexample: the rename is NOT idempotent for every user/repo.
With user `tfutils`, repo `r`, member `tfutils-r-a-r-b`, one application
gives `tfutils-r-b`; the second application matches again and gives
`tfutils`. -/
theorem subLeading_not_idempotent :
    subLeading "tfutils".data "r".data
        (subLeading "tfutils".data "r".data "tfutils-r-a-r-b".data) ≠
      subLeading "tfutils".data "r".data "tfutils-r-a-r-b".data := by
  decide

/-- C9 amended: the rename is idempotent whenever the canonical root
`tfutils` is not a prefix of the user string (in particular for every real
GitHub user other than ones starting with `tfutils`). -/
theorem subLeading_idempotent_of_not_canonical
    (u r name : List Char) (h : canonicalRoot.isPrefixOf u = false) :
    subLeading u r (subLeading u r name) = subLeading u r name := by
  by_cases h1 : (u ++ '-' :: (r ++ ['-'])).isPrefixOf name = true
  · by_cases h2 :
        (name.drop (u ++ '-' :: (r ++ ['-'])).length).takeWhile isWordChar = []
    · have e : subLeading u r name = name := by
        unfold subLeading
        rw [if_pos h1, if_pos h2]
      rw [e]
      exact e
    · have e : subLeading u r name = canonicalRoot ++
          (name.drop (u ++ '-' :: (r ++ ['-'])).length).dropWhile isWordChar := by
        unfold subLeading
        rw [if_pos h1, if_neg h2]
      have h3 := noMatchOnCanonical u r
        ((name.drop (u ++ '-' :: (r ++ ['-'])).length).dropWhile isWordChar) h
      rw [e]
      unfold subLeading
      rw [if_neg (fun hh => Bool.noConfusion (h3.symm.trans hh))]
  · have e : subLeading u r name = name := by
      unfold subLeading
      rw [if_neg h1]
    rw [e]
    exact e

/-- Witness for C9 amended at a concrete user/repo/member. -/
theorem subLeading_idempotent_witness :
    subLeading "alice".data "myrepo".data
        (subLeading "alice".data "myrepo".data "alice-myrepo-abcdef1/src/main.go".data) =
      subLeading "alice".data "myrepo".data "alice-myrepo-abcdef1/src/main.go".data :=
  subLeading_idempotent_of_not_canonical "alice".data "myrepo".data
    "alice-myrepo-abcdef1/src/main.go".data (by decide)

/-- C4 counterexample: the claimed "if and only if" fails. The path
`/buildings/main.c` satisfies none of the spec's five conditions (its
segments are `buildings` and `main.c`, no segment is literally `build`),
yet the code excludes it because the SUBSTRING `/build` occurs in it. -/
theorem filter_backup_substring_counterexample :
    filter_backup exampleBackupDir exampleTarballDir "/buildings/main.c" = true ∧
    spec_filter_backup exampleBackupDir exampleTarballDir "/buildings/main.c" = false := by
  refine ⟨by decide, by decide⟩

/-- C4 amended: the exclusion predicate is a pure function of the path
string that excludes a path iff it CONTAINS the backups-directory path,
the staging-directory path, the substring `/build`, or the substring
`.git/`, or ends with `.pyc`; the claim's concrete examples all hold as
stated. -/
theorem filter_backup_characterization :
    (∀ sBackupDirPath sTarballDirPath sPath : String,
      filter_backup sBackupDirPath sTarballDirPath sPath = true ↔
        (∃ a b, sPath.data = a ++ sBackupDirPath.data ++ b) ∨
        (∃ a b, sPath.data = a ++ sTarballDirPath.data ++ b) ∨
        (∃ a b, sPath.data = a ++ "/build".data ++ b) ∨
        (∃ a b, sPath.data = a ++ ".git/".data ++ b) ∨
        (∃ a, sPath.data = a ++ ".pyc".data)) ∧
    filter_backup exampleBackupDir exampleTarballDir
      "/opt/tfutils/versions/backups/x.tar.gz" = true ∧
    filter_backup exampleBackupDir exampleTarballDir
      "/opt/tfutils/build/out.o" = true ∧
    filter_backup exampleBackupDir exampleTarballDir
      "/opt/tfutils/.git/HEAD" = true ∧
    filter_backup exampleBackupDir exampleTarballDir
      "/opt/tfutils/module.pyc" = true ∧
    filter_backup exampleBackupDir exampleTarballDir
      "/opt/tfutils/src/main.go" = false := by
  refine ⟨?_, by decide, by decide, by decide, by decide, by decide⟩
  intro sBackupDirPath sTarballDirPath sPath
  simp only [filter_backup, Bool.or_eq_true, infixCheck_iff, strEndsWith_iff,
    or_assoc]

/-- C3: the serialize/deserialize round-trip FAILS on the code. `to_json`
of a naive second-resolution datetime emits `2024-03-05T07:08:09` with no
UTC-offset suffix, `parse_dt` then strips at the LAST hyphen, leaving
`2024-03`, which does not match `%Y-%m-%dT%H:%M:%S`; `from_json` raises
`ValueError` instead of returning an equal record. -/
theorem commit_roundtrip_fails :
    Commit.to_json ⟨"abc", "msg", ⟨2024, 3, 5, 7, 8, 9⟩⟩ =
      ⟨"abc", "msg", "2024-03-05T07:08:09"⟩ ∧
    Commit.from_json (Commit.to_json ⟨"abc", "msg", ⟨2024, 3, 5, 7, 8, 9⟩⟩) = none := by
  constructor
  · decide
  · decide

/-- C6: on an absent backing file, `load_version_commit` returns the
sentinel empty record: empty id, the fixed placeholder message, and the
Unix epoch timestamp. -/
theorem load_version_commit_sentinel :
    load_version_commit none = some Commit.empty ∧
    Commit.empty.id = "" ∧
    Commit.empty.sMessage = "(No commit found.)" ∧
    Commit.empty.dt = ⟨1970, 1, 1, 0, 0, 0⟩ := by
  refine ⟨rfl, rfl, rfl, rfl⟩

/-- C1 counterexample: a run of `deploy_updates` that extracts the snapshot
without any backup archive ever being created — `backup_current` is not
part of `deploy_updates`, so no backup precedes extraction. -/
theorem deploy_updates_backup_missing :
    (deploy_updates cfgEx ["alice-myrepo-abcdef1/src/main.go"] nowEx wEmpty).backups
      = [] ∧
    Op.backup ∉
      (deploy_updates cfgEx ["alice-myrepo-abcdef1/src/main.go"] nowEx wEmpty).trace ∧
    (deploy_updates cfgEx ["alice-myrepo-abcdef1/src/main.go"] nowEx wEmpty).extracted
      = ["tfutils/src/main.go"] := by
  refine ⟨by decide, by decide, by decide⟩

/-- C1 amended: `deploy_updates` performs exactly config-load, snapshot
download, and extraction, in that order, and creates NO backup: the backup
set is unchanged, one staged tarball is added, and the snapshot members
are extracted under their normalized names. -/
theorem deploy_updates_spec (cfg : OriginConfig) (members : List String)
    (now : PyDateTime) (w : World) :
    (deploy_updates cfg members now w).trace =
      w.trace ++ [Op.loadConfig, Op.downloadTarball, Op.unpackTarball] ∧
    (deploy_updates cfg members now w).backups = w.backups ∧
    (deploy_updates cfg members now w).tarballs =
      w.tarballs ++ [tarball_filename now] ∧
    (deploy_updates cfg members now w).extracted =
      w.extracted ++ members.map (fun m => rewriteMember cfg.user cfg.repo m) := by
  refine ⟨?_, rfl, rfl, rfl⟩
  simp [deploy_updates, download_tarball, unpack_tarball]

theorem litP_append (pat x : List Char) : litP pat (pat ++ x) = some x := by
  unfold litP
  rw [if_pos (isPrefixOf_append pat x), List.drop_left]

theorem pstep_litP (pat : List Char) : PStep (litP pat) := by
  constructor
  · intro cs r e hf
    unfold litP at hf
    by_cases hp : pat.isPrefixOf cs = true
    · rw [if_pos hp] at hf
      injection hf with hf
      obtain ⟨t, rfl⟩ := (isPrefixOf_exists pat cs).mp hp
      rw [List.drop_left] at hf
      subst hf
      rw [List.append_assoc]
      exact litP_append pat _
    · rw [if_neg hp] at hf
      exact absurd hf (by simp)
  · intro cs r hf
    unfold litP at hf
    by_cases hp : pat.isPrefixOf cs = true
    · rw [if_pos hp] at hf
      injection hf with hf
      obtain ⟨t, rfl⟩ := (isPrefixOf_exists pat cs).mp hp
      rw [List.drop_left] at hf
      subst hf
      refine ⟨pat, rfl, ?_⟩
      have h2 := litP_append pat []
      rwa [List.append_nil] at h2
    · rw [if_neg hp] at hf
      exact absurd hf (by simp)

theorem digitsP_append (n : Nat) (d x : List Char) (hd : d.length = n)
    (hall : d.all Char.isDigit = true) : digitsP n (d ++ x) = some x := by
  unfold digitsP
  rw [List.take_left' hd, List.drop_left' hd]
  rw [if_pos ⟨hd, hall⟩]

theorem pstep_digitsP (n : Nat) : PStep (digitsP n) := by
  constructor
  · intro cs r e hf
    unfold digitsP at hf
    by_cases hp : (cs.take n).length = n ∧ (cs.take n).all Char.isDigit = true
    · rw [if_pos hp] at hf
      injection hf with hf
      have hsplit := List.take_append_drop n cs
      rw [hf] at hsplit
      calc digitsP n (cs ++ e) = digitsP n (cs.take n ++ (r ++ e)) := by
            rw [← List.append_assoc, hsplit]
        _ = some (r ++ e) := digitsP_append n _ _ hp.1 hp.2
    · rw [if_neg hp] at hf
      exact absurd hf (by simp)
  · intro cs r hf
    unfold digitsP at hf
    by_cases hp : (cs.take n).length = n ∧ (cs.take n).all Char.isDigit = true
    · rw [if_pos hp] at hf
      injection hf with hf
      have hsplit := List.take_append_drop n cs
      rw [hf] at hsplit
      refine ⟨cs.take n, hsplit.symm, ?_⟩
      have h2 := digitsP_append n (cs.take n) [] hp.1 hp.2
      rwa [List.append_nil] at h2
    · rw [if_neg hp] at hf
      exact absurd hf (by simp)

theorem pstep_bind {f g : List Char → Option (List Char)}
    (hf : PStep f) (hg : PStep g) : PStep (fun cs => (f cs).bind g) := by
  constructor
  · intro cs r e h
    have h0 : (f cs).bind g = some r := h
    show (f (cs ++ e)).bind g = some (r ++ e)
    cases hfc : f cs with
    | none =>
      rw [hfc] at h0
      exact absurd h0 (by simp)
    | some m =>
      rw [hfc] at h0
      have hgm : g m = some r := h0
      rw [hf.1 cs m e hfc]
      exact hg.1 m r e hgm
  · intro cs r h
    have h0 : (f cs).bind g = some r := h
    cases hfc : f cs with
    | none =>
      rw [hfc] at h0
      exact absurd h0 (by simp)
    | some m =>
      rw [hfc] at h0
      have hgm : g m = some r := h0
      obtain ⟨p1, hp1, hf1⟩ := hf.2 cs m hfc
      obtain ⟨p2, hp2, hg2⟩ := hg.2 m r hgm
      refine ⟨p1 ++ p2, ?_, ?_⟩
      · rw [hp1, hp2, List.append_assoc]
      · have hfp : f (p1 ++ p2) = some ([] ++ p2) := hf.1 p1 [] p2 hf1
        rw [List.nil_append] at hfp
        show (f (p1 ++ p2)).bind g = some []
        rw [hfp]
        exact hg2

theorem pstep_tarballCore : PStep tarballCore := by
  have h1 := pstep_bind (pstep_litP "tarball_".data) (pstep_digitsP 4)
  have h2 := pstep_bind h1 (pstep_litP "_".data)
  have h3 := pstep_bind h2 (pstep_digitsP 2)
  have h4 := pstep_bind h3 (pstep_litP "_".data)
  have h5 := pstep_bind h4 (pstep_digitsP 2)
  have h6 := pstep_bind h5 (pstep_litP "_".data)
  have h7 := pstep_bind h6 (pstep_digitsP 2)
  have h8 := pstep_bind h7 (pstep_litP "_".data)
  have h9 := pstep_bind h8 (pstep_digitsP 2)
  have h10 := pstep_bind h9 (pstep_litP "_".data)
  have h11 := pstep_bind h10 (pstep_digitsP 2)
  have h12 := pstep_bind h11 (pstep_litP ".tar.gz".data)
  exact h12

/-- The `$`-before-a-final-newline case characterized: the body leaves
exactly a newline iff the input is a canonical name followed by one
newline. -/
theorem core_newline_iff (cs : List Char) :
    tarballCore cs = some ['\n'] ↔
      (['\n'].isPrefixOf cs.reverse = true ∧
        tarballCore cs.dropLast = some []) := by
  constructor
  · intro hc
    obtain ⟨p, hp, hcore⟩ := pstep_tarballCore.2 cs ['\n'] hc
    subst hp
    constructor
    · rw [isPrefixOf_exists]
      exact ⟨p.reverse, by simp⟩
    · rw [List.dropLast_concat]
      exact hcore
  · rintro ⟨he, hq⟩
    obtain ⟨t, ht⟩ := (isPrefixOf_exists _ _).mp he
    have hcs : cs = t.reverse ++ ['\n'] := by
      have h2 := congrArg List.reverse ht
      simpa using h2
    have hdl : cs.dropLast = t.reverse := by rw [hcs, List.dropLast_concat]
    rw [hdl] at hq
    have h3 := pstep_tarballCore.1 t.reverse [] ['\n'] hq
    rw [List.nil_append] at h3
    rw [hcs]
    exact h3

theorem tarballMatch_eq (s : String) :
    tarballMatch s = (specCanonicalTarball s ||
      (strEndsWith "\n" s && specCanonicalTarball ⟨s.data.dropLast⟩)) := by
  have e1 : "\n".data.reverse = ['\n'] := rfl
  have e2 : (String.mk (s.data.dropLast)).data = s.data.dropLast := rfl
  unfold tarballMatch specCanonicalTarball strEndsWith
  rw [e1, e2, Bool.eq_iff_iff]
  simp only [Bool.or_eq_true, Bool.and_eq_true, decide_eq_true_eq]
  exact or_congr Iff.rfl (core_newline_iff s.data)

/-- C8 counterexample: a file named like a canonical tarball but with one
trailing newline does NOT match the canonical pattern, yet
`clean_downloads` unlinks it — Python's `$` matches just before a string's
final newline, so `TARBALL_RE.match` accepts the name. -/
theorem clean_downloads_trailing_newline :
    specCanonicalTarball "tarball_2024_01_02_03_04_05.tar.gz\n" = false ∧
    (clean_downloads ["tarball_2024_01_02_03_04_05.tar.gz\n", "notes.txt"]).1 =
      ["tarball_2024_01_02_03_04_05.tar.gz\n"] ∧
    (clean_downloads ["tarball_2024_01_02_03_04_05.tar.gz\n", "notes.txt"]).2 =
      ["notes.txt"] := by
  refine ⟨by decide, by decide, by decide⟩

/-- C8 amended: `clean_downloads` deletes exactly the files whose names
match the canonical pattern `tarball_YYYY_MM_DD_HH_MM_SS.tar.gz`, either
exactly or followed by one trailing newline (a consequence of the `$`
anchor); every other file is left untouched. -/
theorem clean_downloads_exact (files : List String) :
    (clean_downloads files).1 = files.filter (fun s => specCanonicalTarball s ||
      (strEndsWith "\n" s && specCanonicalTarball ⟨s.data.dropLast⟩)) ∧
    (clean_downloads files).2 = files.filter (fun s => !(specCanonicalTarball s ||
      (strEndsWith "\n" s && specCanonicalTarball ⟨s.data.dropLast⟩))) := by
  unfold clean_downloads
  constructor
  · exact List.filter_congr (fun s _ => tarballMatch_eq s)
  · exact List.filter_congr (fun s _ => by rw [tarballMatch_eq s])

end UpdateManager
